import Mathlib

/-
  Verification of the wave-statistics pipeline in
  python/ooi_data_explorations/uncabled/process_mopak.py.

  Shallow embedding conventions:
  * numpy float arrays are modeled as `List ℚ` (exact, computable) where the
    claim is decided by discrete control flow and index arithmetic, and as
    `List ℝ` where trigonometry or square roots matter.
  * Python `IndexError` (out-of-bounds indexing, including numpy fancy
    indexing) is modeled by `Option`: a failing call returns `none`.
  * Python negative indexing wraps around, as implemented in `pyGet`.
  * numpy NaN results produced on purpose by the code (the "undefined"
    markers of the statistics API) are modeled as `none` fields of type
    `Option ℝ`.
-/

namespace ProcessMopak

/-! ### Python/numpy indexing primitives -/

/-- Python indexing `l[k]` with negative-index wraparound; `none` models an
`IndexError`. -/
def pyGet {α : Type} (l : List α) (k : ℤ) : Option α :=
  if 0 ≤ k ∧ k < l.length then l.get? k.toNat
  else if -(l.length : ℤ) ≤ k ∧ k < 0 then l.get? (k + l.length).toNat
  else none

/-- numpy fancy indexing `l[ks]` with an index array: it raises (`none`) as
soon as any single index is out of bounds. -/
def pyGets {α : Type} (l : List α) : List ℤ → Option (List α)
  | [] => some []
  | k :: ks => do
    let v ← pyGet l k
    let vs ← pyGets l ks
    pure (v :: vs)

/-- Python slice assignment `sample[start:stop] = v` (stop past the end is
clamped, exactly as in numpy). -/
def setSlice (l : List ℤ) (start stop : ℕ) (v : ℤ) : List ℤ :=
  l.enum.map fun ji => if start ≤ ji.1 ∧ ji.1 < stop then v else ji.2

/-- `np.cumsum` on a list. -/
def cumsum (l : List ℚ) : List ℚ :=
  (l.scanl (· + ·) 0).tail

/-! ### Burst segmentation: `identify_samples` (process_mopak.py 143-182)

Times are modeled as integer seconds.  `ds["time"].diff(dim="time").dt.seconds`
is the whole-second part of each difference of consecutive timestamps; for the
sub-day gaps at issue it equals the difference in seconds, which is how `dt`
is computed here. -/

/-- Shallow embedding of `identify_samples`: `dt` is the list of consecutive
time differences, `ends` the (shifted) positions of the above-threshold gaps,
and the fold reproduces the Python `for i, end in enumerate(ends)` loop with
its three branches (`i == 0`, `end == ends[-1]`, and the default), writing
burst id `i` into `sample[start:end]`. -/
def identify_samples (times : List ℤ) (threshold : ℤ) : List ℤ :=
  let dt := List.zipWith (fun a b => a - b) times.tail times
  let ends := (dt.enum.filter fun ie => threshold < ie.2).map fun ie => ie.1 + 1
  let init : List ℤ := List.replicate times.length 0
  ends.enum.foldl
    (fun sample ie =>
      if ie.1 = 0 then
        setSlice sample 0 ie.2 (ie.1 : ℤ)
      else if ie.2 = ends.getLastD 0 then
        setSlice sample (ends.getD (ie.1 - 1) 0) (times.length + 1) (ie.1 : ℤ)
      else
        setSlice sample (ends.getD (ie.1 - 1) 0) ie.2 (ie.1 : ℤ))
    init

/-- Claim C1: on a time series with exactly one above-threshold gap (a
3000-second gap between two halves, threshold 2400 s), `identify_samples` is
claimed to return two distinct burst ids, the second covering all indices from
the gap onward.  Evaluating the code at such an input shows the loop never
labels the trailing segment: every index keeps burst id 0, so exactly one
distinct id is produced and the two bursts are merged. -/
theorem identify_samples_single_gap_yields_one_burst :
    identify_samples [0, 100, 200, 3200, 3300, 3400] 2400 = [0, 0, 0, 0, 0, 0] ∧
    (identify_samples [0, 100, 200, 3200, 3300, 3400] 2400).eraseDups = [0] := by
  constructor <;> rfl

/-! ### Four-quadrant arctangent: `arctan3` (process_mopak.py 610-621)

`np.arctan2` is embedded per its specification (quadrant-corrected arctangent
with `arctan2 0 0 = 0`); `arctan3` shifts negative angles by `2*pi`, exactly
as the source does elementwise on the array.  The mean wave direction of
`wave_spectra` (line 805) is `57.296 * arctan3 Cpu Cpv` per band. -/

open scoped Classical in
/-- `np.arctan2 y x`, the four-quadrant inverse tangent. -/
noncomputable def arctan2 (y x : ℝ) : ℝ :=
  if 0 < x then Real.arctan (y / x)
  else if x < 0 then
    (if 0 ≤ y then Real.arctan (y / x) + Real.pi else Real.arctan (y / x) - Real.pi)
  else
    (if 0 < y then Real.pi / 2 else if y < 0 then -(Real.pi / 2) else 0)

open scoped Classical in
/-- Shallow embedding of `arctan3` (scalar form; the source maps it over the
cross-spectral arrays): add `2*pi` where `arctan2` is negative. -/
noncomputable def arctan3 (y x : ℝ) : ℝ :=
  if arctan2 y x < 0 then arctan2 y x + 2 * Real.pi else arctan2 y x

theorem arctan_le_self_of_nonneg {t : ℝ} (ht : 0 ≤ t) : Real.arctan t ≤ t := by
  rcases eq_or_lt_of_le ht with h | h
  · simp [← h]
  · have ha0 : 0 < Real.arctan t := by
      have := Real.arctan_strictMono h
      simpa using this
    have ha2 : Real.arctan t < Real.pi / 2 := Real.arctan_lt_pi_div_two t
    have := Real.le_tan ha0.le ha2
    rwa [Real.tan_arctan] at this

theorem arctan2_range (y x : ℝ) : -Real.pi < arctan2 y x ∧ arctan2 y x ≤ Real.pi := by
  have hpi := Real.pi_pos
  unfold arctan2
  split_ifs with h1 h2 h3 h4 h5
  · have := Real.arctan_lt_pi_div_two (y / x)
    have := Real.neg_pi_div_two_lt_arctan (y / x)
    constructor <;> linarith
  · have harg : y / x ≤ 0 := div_nonpos_of_nonneg_of_nonpos h3 h2.le
    have : Real.arctan (y / x) ≤ 0 := by
      have := Real.arctan_strictMono.monotone harg
      simpa using this
    have := Real.neg_pi_div_two_lt_arctan (y / x)
    constructor <;> linarith
  · have harg : 0 < y / x := div_pos_iff.mpr (Or.inr ⟨by linarith, h2⟩)
    have : 0 < Real.arctan (y / x) := by
      have := Real.arctan_strictMono harg
      simpa using this
    have := Real.arctan_lt_pi_div_two (y / x)
    constructor <;> linarith
  · constructor <;> linarith
  · constructor <;> linarith
  · constructor <;> linarith

theorem arctan3_range (y x : ℝ) : 0 ≤ arctan3 y x ∧ arctan3 y x < 2 * Real.pi := by
  have hpi := Real.pi_pos
  obtain ⟨hl, hr⟩ := arctan2_range y x
  unfold arctan3
  split_ifs with h
  · constructor <;> linarith
  · constructor <;> linarith

/-- Claim C6 (amended): `arctan3` does return values in `[0, 2*pi)`, but the
degree conversion uses the constant `57.296`, which is slightly larger than
`180/pi`; the per-band direction `57.296 * arctan3 Cpu Cpv` is therefore only
guaranteed to lie in `[0, 57.296 * 2 * pi)`, an interval whose upper end
exceeds 360 degrees (it is about 360.0014). -/
theorem direction_range_amended (y x : ℝ) :
    (0 ≤ arctan3 y x ∧ arctan3 y x < 2 * Real.pi) ∧
    (0 ≤ 57.296 * arctan3 y x ∧ 57.296 * arctan3 y x < 57.296 * (2 * Real.pi)) := by
  obtain ⟨h0, h2⟩ := arctan3_range y x
  refine ⟨⟨h0, h2⟩, ⟨by linarith, by nlinarith⟩⟩

/-- Claim C6 (counterexample): at the cross-spectral values
`Cpu = -1/200000`, `Cpv = 1` the mean wave direction `57.296 * arctan3 Cpu Cpv`
exceeds 360 degrees, refuting the claimed range `[0, 360)`. -/
theorem direction_counterexample :
    360 < 57.296 * arctan3 (-(1 / 200000)) 1 := by
  have hpi : (3.141592 : ℝ) < Real.pi := Real.pi_gt_d6
  have hu : Real.arctan (1 / 200000) ≤ 1 / 200000 :=
    arctan_le_self_of_nonneg (by norm_num)
  have hupos : 0 < Real.arctan (1 / 200000) := by
    have := Real.arctan_strictMono (show (0 : ℝ) < 1 / 200000 by norm_num)
    simpa using this
  have h2 : arctan2 (-(1 / 200000)) 1 = -Real.arctan (1 / 200000) := by
    unfold arctan2
    rw [if_pos (show (0 : ℝ) < 1 by norm_num)]
    rw [div_one, Real.arctan_neg]
  have h3 : arctan3 (-(1 / 200000)) 1 = -Real.arctan (1 / 200000) + 2 * Real.pi := by
    unfold arctan3
    rw [h2, if_pos (by linarith)]
  rw [h3]
  nlinarith

/-! ### Frame rotation: `rotate` (process_mopak.py 395-453)

Vector and angle series are modeled as lists of triples (one triple per
sample column of the `3 x n` arrays); `np.vstack` pairing of columns is
`List.zipWith`.  The two `IFLAG` branches transcribe the two 3-2-1
direction-cosine matrices of the source line by line. -/

/-- One sample column of `rotate`: apply the body-to-earth (`IFLAG = 0`) or
earth-to-body (`IFLAG = 1`) direction-cosine matrix for Euler angles
`(phi, theta, psi)` to the vector `(up, vp, wp)`. -/
noncomputable def rotateSample (vin ang : ℝ × ℝ × ℝ) (IFLAG : ℕ) : ℝ × ℝ × ℝ :=
  let phi := ang.1
  let theta := ang.2.1
  let psi := ang.2.2
  let up := vin.1
  let vp := vin.2.1
  let wp := vin.2.2
  if IFLAG = 1 then
    (up * Real.cos theta * Real.cos psi + vp * Real.cos theta * Real.sin psi -
       wp * Real.sin theta,
     up * (Real.sin phi * Real.sin theta * Real.cos psi - Real.cos phi * Real.sin psi) +
       vp * (Real.sin phi * Real.sin theta * Real.sin psi + Real.cos phi * Real.cos psi) +
       wp * (Real.cos theta * Real.sin phi),
     up * (Real.cos phi * Real.sin theta * Real.cos psi + Real.sin phi * Real.sin psi) +
       vp * (Real.cos phi * Real.sin theta * Real.sin psi - Real.sin phi * Real.cos psi) +
       wp * (Real.cos theta * Real.cos phi))
  else
    (up * Real.cos theta * Real.cos psi +
       vp * (Real.sin phi * Real.sin theta * Real.cos psi - Real.cos phi * Real.sin psi) +
       wp * (Real.cos phi * Real.sin theta * Real.cos psi + Real.sin phi * Real.sin psi),
     up * Real.cos theta * Real.sin psi +
       vp * (Real.sin phi * Real.sin theta * Real.sin psi + Real.cos phi * Real.cos psi) +
       wp * (Real.cos phi * Real.sin theta * Real.sin psi - Real.sin phi * Real.cos psi),
     up * (-Real.sin theta) + vp * (Real.cos theta * Real.sin phi) +
       wp * (Real.cos theta * Real.cos phi))

/-- Shallow embedding of `rotate`: per-sample rotation over the paired vector
and angle series. -/
noncomputable def rotate (IN ANGLES : List (ℝ × ℝ × ℝ)) (IFLAG : ℕ) : List (ℝ × ℝ × ℝ) :=
  List.zipWith (fun v a => rotateSample v a IFLAG) IN ANGLES

theorem rotateSample_roundtrip (v ang : ℝ × ℝ × ℝ) :
    rotateSample (rotateSample v ang 0) ang 1 = v := by
  obtain ⟨u, vv, w⟩ := v
  obtain ⟨phi, theta, psi⟩ := ang
  have h1 := Real.sin_sq_add_cos_sq phi
  have h2 := Real.sin_sq_add_cos_sq theta
  have h3 := Real.sin_sq_add_cos_sq psi
  simp only [rotateSample]
  norm_num
  refine ⟨?_, ?_, ?_⟩
  · linear_combination
      (u * Real.cos theta ^ 2 + vv * Real.sin phi * Real.sin theta * Real.cos theta +
        w * Real.cos phi * Real.sin theta * Real.cos theta) * h3 + u * h2
  · linear_combination
      (u * Real.sin phi * Real.sin theta * Real.cos theta +
        vv * (Real.sin phi ^ 2 * Real.sin theta ^ 2 + Real.cos phi ^ 2) +
        w * Real.sin phi * Real.cos phi * (Real.sin theta ^ 2 - 1)) * h3 +
      (vv * Real.sin phi ^ 2 + w * Real.sin phi * Real.cos phi) * h2 + vv * h1
  · linear_combination
      (u * Real.cos phi * Real.sin theta * Real.cos theta +
        vv * Real.sin phi * Real.cos phi * (Real.sin theta ^ 2 - 1) +
        w * (Real.cos phi ^ 2 * Real.sin theta ^ 2 + Real.sin phi ^ 2)) * h3 +
      (vv * Real.sin phi * Real.cos phi + w * Real.cos phi ^ 2) * h2 + w * h1

/-- Claim C3: rotating a vector series body-to-earth (`IFLAG = 0`) and then
earth-to-body (`IFLAG = 1`) with the same Euler-angle series returns the
original vector series exactly (real arithmetic). -/
theorem rotate_roundtrip (IN ANGLES : List (ℝ × ℝ × ℝ))
    (h : IN.length = ANGLES.length) :
    rotate (rotate IN ANGLES 0) ANGLES 1 = IN := by
  induction IN generalizing ANGLES with
  | nil => simp [rotate]
  | cons v t ih =>
    cases ANGLES with
    | nil => simp at h
    | cons a ta =>
      simp only [rotate, List.zipWith_cons_cons, rotateSample_roundtrip, List.cons.injEq,
        true_and]
      exact ih ta (by simpa using h)

/-- Claim C3 (witness): the round-trip theorem applied to the concrete
one-sample series `(1, 2, 3)` with angles `(0, 0, 0)`. -/
theorem rotate_roundtrip_witness :
    rotate (rotate [((1 : ℝ), 2, 3)] [((0 : ℝ), 0, 0)] 0) [((0 : ℝ), 0, 0)] 1 =
      [((1 : ℝ), 2, 3)] :=
  rotate_roundtrip [((1 : ℝ), 2, 3)] [((0 : ℝ), 0, 0)] (by simp)

/-! ### PUV summary statistics: `wave_spectra_statistics` (process_mopak.py 818-866)

Spectral values are exact rationals; the scipy/numpy transcendental scalar
operations `**0.5`, `np.log` and `np.exp` are abstract parameters `sq`, `lg`,
`ex` (the index arithmetic and failure behaviour under scrutiny here do not
depend on them).  `np.where(p_spectra == B)[0]` is the list `nP` of all
indices attaining the maximum; fancy indexing with `nP-1`, `nP+1` and `nP` is
`pyGets`, which fails (`none`, an `IndexError`) as soon as one index is out of
bounds.  Rational division by zero is 0 where numpy would produce NaN; no
theorem below reaches that case. -/

/-- Shallow embedding of `wave_spectra_statistics`, following the source line
by line: `Hm0` from the cumulative pressure spectrum, peak bin set `nP`, the
neighbours `A`/`C` of the peak, the parabolic log-frequency interpolation,
and the direction and spread picked at the peak. -/
def wave_spectra_statistics (sq lg ex : ℚ → ℚ) (p_spectra Tdir Ts F dF : List ℚ) :
    Option (ℚ × ℚ × ℚ × ℚ) := do
  let m0 ← (cumsum (List.zipWith (· * ·) p_spectra dF)).max?
  let Hm0 := sq m0 * 4
  let B ← p_spectra.max?
  let nP : List ℤ := (p_spectra.enum.filter fun q => q.2 = B).map fun q => (q.1 : ℤ)
  let As ← pyGets p_spectra (nP.map fun k => k - 1)
  let A ← As.head?
  let Cs ← pyGets p_spectra (nP.map fun k => k + 1)
  let C ← Cs.head?
  let Fp1 ← pyGets F (nP.map fun k => k + 1)
  let Fm1 ← pyGets F (nP.map fun k => k - 1)
  let FsA := List.zipWith
    (fun a b => (lg a - lg b) * (-(C - A) / (2 * (A - 2 * B + C))) / 2) Fp1 Fm1
  let FnP ← pyGets F nP
  let Fs ← (List.zipWith (fun fv sv => ex (lg fv + sv)) FnP FsA).head?
  let TdirA ← pyGets Tdir nP
  let TdirP ← TdirA.head?
  let TsA ← pyGets Ts nP
  let TsP ← TsA.head?
  return (Hm0, Fs, TdirP, TsP)

theorem pyGets_eq_none_of_mem {α : Type} (l : List α) {ks : List ℤ} {a : ℤ}
    (ha : a ∈ ks) (hf : pyGet l a = none) : pyGets l ks = none := by
  induction ks with
  | nil => simp at ha
  | cons b t ih =>
    rcases List.mem_cons.mp ha with rfl | hmem
    · simp [pyGets, hf]
    · cases hb : pyGet l b
      · simp [pyGets, hb]
      · simp [pyGets, hb, ih hmem]

theorem pyGet_length_eq_none {α : Type} (l : List α) : pyGet l (l.length : ℤ) = none := by
  unfold pyGet
  have h1 : ¬((0 : ℤ) ≤ (l.length : ℤ) ∧ (l.length : ℤ) < (l.length : ℤ)) := by omega
  have h2 : ¬(-((l.length : ℕ) : ℤ) ≤ (l.length : ℤ) ∧ (l.length : ℤ) < 0) := by omega
  rw [if_neg h1, if_neg h2]

/-- Claim C2 (amended): whenever the last band of `p_spectra` attains the
spectral maximum — in particular for every zero-energy spectrum, all of whose
bands attain the maximum 0 — `wave_spectra_statistics` fails with an
out-of-bounds index error (the fancy index `nP+1` reaches past the end of
`p_spectra`), for every interpretation of the scalar `sqrt`/`log`/`exp`
operations; it does not return a NaN-valued result. -/
theorem wave_spectra_statistics_peak_at_end_raises (sq lg ex : ℚ → ℚ)
    (p_spectra Tdir Ts F dF : List ℚ) (B : ℚ)
    (hmax : p_spectra.max? = some B) (hlast : p_spectra.getLast? = some B) :
    wave_spectra_statistics sq lg ex p_spectra Tdir Ts F dF = none := by
  have hne : p_spectra ≠ [] := by
    intro h
    rw [h] at hmax
    simp at hmax
  have hlen : 0 < p_spectra.length := List.length_pos.mpr hne
  -- the last index belongs to the peak set nP
  have hgetlast : p_spectra[p_spectra.length - 1]? = some B := by
    rw [← List.getLast?_eq_getElem?]
    exact hlast
  have hmemEnum : ((p_spectra.length - 1 : ℕ), B) ∈ p_spectra.enum :=
    List.mem_enum_iff_getElem?.mpr hgetlast
  have hmemNP : ((p_spectra.length - 1 : ℕ) : ℤ) ∈
      (p_spectra.enum.filter fun q => q.2 = B).map fun q => ((q.1 : ℕ) : ℤ) := by
    refine List.mem_map.mpr ⟨((p_spectra.length - 1 : ℕ), B), ?_, rfl⟩
    exact List.mem_filter.mpr ⟨hmemEnum, by simp⟩
  -- hence the fancy index nP+1 contains p_spectra.length, which is out of bounds
  have hCs : pyGets p_spectra
      ((((p_spectra.enum.filter fun q => q.2 = B).map fun q => ((q.1 : ℕ) : ℤ)).map
        fun k => k + 1)) = none := by
    apply pyGets_eq_none_of_mem p_spectra (List.mem_map.mpr ⟨_, hmemNP, rfl⟩)
    have : ((p_spectra.length - 1 : ℕ) : ℤ) + 1 = (p_spectra.length : ℤ) := by omega
    rw [this]
    exact pyGet_length_eq_none p_spectra
  unfold wave_spectra_statistics
  cases hm0 : (cumsum (List.zipWith (· * ·) p_spectra dF)).max? with
  | none => rfl
  | some m0 =>
    rw [hmax]
    simp only [Option.bind_eq_bind, Option.some_bind]
    cases hAs : pyGets p_spectra
        (((p_spectra.enum.filter fun q => q.2 = B).map fun q => ((q.1 : ℕ) : ℤ)).map
          fun k => k - 1) with
    | none => rfl
    | some As =>
      simp only [Option.some_bind]
      cases hA : As.head? with
      | none => rfl
      | some A =>
        simp only [Option.some_bind]
        rw [hCs]
        rfl

/-- Claim C2 (witness for the amended theorem): the zero-energy two-band
spectrum `[0, 0]` attains its maximum 0 at the last band, so the call fails. -/
theorem wave_spectra_statistics_peak_at_end_raises_witness :
    wave_spectra_statistics id id id [0, 0] [1, 2] [3, 4] [5, 6] [1, 1] = none :=
  wave_spectra_statistics_peak_at_end_raises id id id [0, 0] [1, 2] [3, 4] [5, 6] [1, 1] 0
    rfl rfl

/-- Claim C2 (counterexample): for the spectrum `[1, 2, 3]` the peak value 3
sits at the last band, and `wave_spectra_statistics` fails with an index error
(`none`) instead of returning not-a-number values, refuting the claim that
boundary-peak spectra produce NaN without an exception. -/
theorem wave_spectra_statistics_boundary_peak_counterexample :
    wave_spectra_statistics id id id [1, 2, 3] [10, 20, 30] [7, 8, 9] [1, 2, 3] [1, 1, 1] =
      none := by
  rfl

/-! ### Despiking: `despike` (process_mopak.py 562-607)

Channel data are exact rationals, so the `~np.isnan` clause of the good-sample
test is vacuous and the `np.nanmedian`/`np.nanstd` reductions are the plain
median and population standard deviation.  `ratSqrt` is the exact rational
square root (it agrees with numpy's floating-point square root on every
variance reached by the theorems below, all of which are perfect squares).

`np.atleast_2d` returns a view of the caller's array and the source assigns
each cleaned row back with `data[row, :] = ft(t)`, so the array the caller
holds after the call is precisely the first component of the returned pair:
the claim that the caller's input is unchanged is the claim that this
component always equals the original input. -/

/-- Exact natural square root, when it exists. -/
def natSqrtExact (n : ℕ) : Option ℕ :=
  (List.range (n + 1)).find? fun k => k * k = n

/-- Exact square root of a nonnegative perfect-square rational, else 0. -/
def ratSqrt (q : ℚ) : ℚ :=
  if 0 ≤ q then
    match natSqrtExact q.num.toNat, natSqrtExact q.den with
    | some a, some b => (a : ℚ) / (b : ℚ)
    | _, _ => 0
  else 0

/-- `np.nanmedian` on NaN-free data: middle of the sorted list (mean of the
two middle entries for even length). -/
def nanmedian (l : List ℚ) : ℚ :=
  let s := l.insertionSort (· ≤ ·)
  if l.length % 2 = 1 then s.getD (l.length / 2) 0
  else (s.getD (l.length / 2 - 1) 0 + s.getD (l.length / 2) 0) / 2

/-- `np.nanstd` on NaN-free data: square root of the population variance. -/
def nanstd (l : List ℚ) : ℚ :=
  ratSqrt (((l.map fun x => (x - l.sum / l.length) ^ 2).sum) / l.length)

/-- Indices of in-range samples: the `np.where((data < median + n_std*std) &
(data > median - n_std*std) & ~isnan)` test of the source. -/
def goodIdx (row : List ℚ) (n_std : ℚ) : List ℕ :=
  (row.enum.filter fun ix =>
    ix.2 < nanmedian row + n_std * nanstd row ∧
    nanmedian row - n_std * nanstd row < ix.2).map fun ix => ix.1

/-- `scipy.interpolate.interp1d(..., kind="nearest", fill_value="extrapolate")`
evaluated at integer `t`: the good index nearest to `t` (ties resolved
downward, as scipy's `nearest` does). -/
def nearestPick (g : List ℕ) (t : ℕ) : ℕ :=
  g.foldl (fun (best gi : ℕ) =>
    if Int.natAbs ((gi : ℤ) - (t : ℤ)) < Int.natAbs ((best : ℤ) - (t : ℤ)) then gi
    else best) (g.headD 0)

/-- One pass of the inner despike loop: recompute median/std, find the good
samples, and (when any exist) rewrite the whole row by nearest-neighbour
interpolation over them. -/
def despikeIter (row : List ℚ) (n_std : ℚ) : List ℚ :=
  if 0 < (goodIdx row n_std).length then
    (List.range row.length).map fun t => row.getD (nearestPick (goodIdx row n_std) t) 0
  else row

/-- Shallow embedding of `despike`: per row, `iters` cleaning passes; the
per-row bad count is taken on the first pass (`i == 0`), i.e. from the
original row.  The first component is simultaneously the returned cleaned
data and the caller's buffer after the call (in-place mutation). -/
def despike (data : List (List ℚ)) (n_std : ℚ) (iters : ℕ) :
    List (List ℚ) × List ℕ :=
  (data.map fun row => (fun r => despikeIter r n_std)^[iters] row,
   data.map fun row => row.length - (goodIdx row n_std).length)

set_option maxRecDepth 100000 in
/-- Claim C5 (counterexample): on the single-channel array of sixteen zeros
followed by the spike 17 (median 0, standard deviation exactly 4, so the
spike lies outside `median + 4*std = 16`), `despike` with its default
parameters rewrites the row in place: the caller's array after the call — the
first component of the result — differs from the original input. -/
theorem despike_mutates_input_counterexample :
    (despike [List.replicate 16 (0 : ℚ) ++ [17]] 4 3).1 ≠
      [List.replicate 16 (0 : ℚ) ++ [17]] := by
  with_unfolding_all decide

set_option maxRecDepth 100000 in
/-- Claim C5 (amended): `despike` cleans its input in place; after the call
the caller's array holds the cleaned data, not the original samples. On the
spiked input above the caller's array has become all zeros, and one bad
sample is reported for the channel. -/
theorem despike_leaves_cleaned_buffer :
    despike [List.replicate 16 (0 : ℚ) ++ [17]] 4 3 =
      ([List.replicate 17 (0 : ℚ)], [1]) := by
  with_unfolding_all decide

/-! ### Logarithmic band averaging: `log_avg` (process_mopak.py 624-675)

Frequencies and spectra are reals.  `NDX` holds exact integers (the source
keeps them as floats), `AA` is the `np.where(np.diff(NDX) > 0)[0]` transition
array with the final index `len(f)-1` appended, and the per-band sample
counts are `np.concatenate([[AA[0]+1], np.diff(AA)])`.  Indexing `Cf[AA]`,
`Cs[AA]`, `f[9]` and `f[8]` goes through `pyGet`/`pyGets`, so an
out-of-bounds access makes the whole call return `none` (`IndexError`). -/

/-- `np.cumsum` over the reals. -/
noncomputable def cumsumR (l : List ℝ) : List ℝ :=
  (l.scanl (· + ·) 0).tail

/-- The band-transition array `AA` of `log_avg`: positions where the integer
log-band index `NDX` increases, with the final index appended. -/
noncomputable def log_avg_AA (f : List ℝ) (lfLast lf0 : ℝ) (n : ℕ) : List ℕ :=
  let dlf : ℝ := 1.000000001 * (lfLast - lf0) / (n : ℝ)
  let NDX : List ℤ := (f.map Real.log).map fun x => 1 + ⌊(x - lf0) / dlf⌋
  let dN := List.zipWith (fun a b => a - b) NDX.tail NDX
  ((dN.enum.filter fun p => 0 < p.2).map fun p => p.1) ++ [f.length - 1]

/-- Per-band sample counts `np.concatenate([[AA[0]+1], np.diff(AA)])`. -/
def bandCounts (AA : List ℕ) : List ℤ :=
  match AA with
  | [] => []
  | a0 :: rest =>
    ((a0 : ℤ) + 1) ::
      List.zipWith (fun x y => x - y) (rest.map fun (a : ℕ) => (a : ℤ))
        ((a0 :: rest).map fun (a : ℕ) => (a : ℤ))

/-- Band start indices `Ns = np.concatenate([[0], AA[0:-1]+1])`. -/
def bandStarts (AA : List ℕ) : List ℤ :=
  0 :: (AA.dropLast.map fun (a : ℕ) => (a : ℤ) + 1)

/-- Band end indices `Ne = AA`. -/
def bandEnds (AA : List ℕ) : List ℤ :=
  AA.map fun (a : ℕ) => (a : ℤ)

/-- `np.concatenate([[C[0]], np.diff(C)])` for a cumulative-sum slice `C`:
the per-band sums recovered from consecutive cumulative values. -/
def diffsFrom (l : List ℝ) : List ℝ :=
  match l with
  | [] => []
  | c0 :: rest => c0 :: List.zipWith (fun x y => x - y) rest (c0 :: rest)

/-- Shallow embedding of `log_avg`, with the source's read and computation
order: `lf[len(f)-1]` and `lf[0]`, the transition array, the fancy-indexed
cumulative sums, the averaged `F` and `S`, then the bandwidth step
`f[9] - f[8]` and the band index arrays. -/
noncomputable def log_avg (f s : List ℝ) (n : ℕ) :
    Option (List ℝ × List ℝ × List ℝ × List ℤ × List ℤ) := do
  let lf := f.map Real.log
  let lfLast ← pyGet lf ((lf.length : ℤ) - 1)
  let lf0 ← pyGet lf 0
  let AA := log_avg_AA f lfLast lf0 n
  let CfA ← pyGets (cumsumR f) (AA.map fun (a : ℕ) => (a : ℤ))
  let CsA ← pyGets (cumsumR s) (AA.map fun (a : ℕ) => (a : ℤ))
  let F := List.zipWith (fun (a : ℝ) (c : ℤ) => a / (c : ℝ)) (diffsFrom CfA) (bandCounts AA)
  let S := List.zipWith (fun (a : ℝ) (c : ℤ) => a / (c : ℝ)) (diffsFrom CsA) (bandCounts AA)
  let f9 ← pyGet f 9
  let f8 ← pyGet f 8
  let dF := (bandCounts AA).map fun (c : ℤ) => (c : ℝ) * (f9 - f8)
  return (F, S, dF, bandStarts AA, bandEnds AA)

theorem pyGet_some_of_bounds {α : Type} (l : List α) (k : ℤ)
    (h0 : 0 ≤ k) (h1 : k < l.length) : ∃ v, pyGet l k = some v := by
  have hk : k.toNat < l.length := by omega
  exact ⟨l.get ⟨k.toNat, hk⟩, by rw [pyGet, if_pos ⟨h0, h1⟩, List.get?_eq_get hk]⟩

theorem pyGet_none_of_ge {α : Type} (l : List α) (k : ℤ)
    (h : (l.length : ℤ) ≤ k) : pyGet l k = none := by
  rw [pyGet, if_neg (by omega), if_neg (by omega)]

theorem pyGets_some {α : Type} (l : List α) (ks : List ℤ)
    (h : ∀ k ∈ ks, 0 ≤ k ∧ k < l.length) : ∃ vs, pyGets l ks = some vs := by
  induction ks with
  | nil => exact ⟨[], rfl⟩
  | cons k t ih =>
    obtain ⟨hk0, hk1⟩ := h k (List.mem_cons_self k t)
    obtain ⟨v, hv⟩ := pyGet_some_of_bounds l k hk0 hk1
    obtain ⟨vs, hvs⟩ := ih fun a ha => h a (List.mem_cons_of_mem k ha)
    exact ⟨v :: vs, by simp [pyGets, hv, hvs]⟩

theorem log_avg_AA_ne_nil (f : List ℝ) (x y : ℝ) (n : ℕ) :
    log_avg_AA f x y n ≠ [] := by
  simp [log_avg_AA]

theorem log_avg_AA_getLast? (f : List ℝ) (x y : ℝ) (n : ℕ) :
    (log_avg_AA f x y n).getLast? = some (f.length - 1) :=
  List.getLast?_concat _

theorem log_avg_AA_mem_lt (f : List ℝ) (x y : ℝ) (n : ℕ) (hf : 0 < f.length) :
    ∀ a ∈ log_avg_AA f x y n, a < f.length := by
  intro a ha
  rcases List.mem_append.mp ha with h | h
  · obtain ⟨p, hp, rfl⟩ := List.mem_map.mp h
    have hpm := List.mem_filter.mp hp
    have hlt : p.1 < (List.zipWith (fun a b => a - b)
        (((f.map Real.log).map fun x2 =>
          1 + ⌊(x2 - y) / (1.000000001 * (x - y) / (n : ℝ))⌋).tail)
        ((f.map Real.log).map fun x2 =>
          1 + ⌊(x2 - y) / (1.000000001 * (x - y) / (n : ℝ))⌋)).length := by
      have := List.mem_enum_iff_getElem?.mp hpm.1
      obtain ⟨hb, -⟩ := List.getElem?_eq_some.mp this
      exact hb
    simp only [List.length_zipWith, List.length_tail, List.length_map] at hlt
    omega
  · simp only [List.mem_singleton] at h
    omega

theorem dropLast_map_comm {α β : Type} (l : List α) (g : α → β) :
    (l.map g).dropLast = l.dropLast.map g := by
  induction l with
  | nil => rfl
  | cons a t ih =>
    cases t with
    | nil => rfl
    | cons b t2 => simpa using ih

theorem zipWith_ends_starts (rest : List ℤ) : ∀ (a0 c : ℤ),
    List.zipWith (fun e b => e - b + 1) (a0 :: rest)
      (c :: ((a0 :: rest).dropLast.map fun x => x + 1)) =
    (a0 - c + 1) :: List.zipWith (fun x y => x - y) rest (a0 :: rest) := by
  induction rest with
  | nil => intro a0 c; rfl
  | cons b t ih =>
    intro a0 c
    rw [List.dropLast_cons₂, List.map_cons, List.zipWith_cons_cons, ih b (a0 + 1)]
    rw [show b - (a0 + 1) + 1 = b - a0 by ring]
    rfl

theorem telescope_sum (rest : List ℤ) : ∀ a0 : ℤ,
    ((a0 + 1) :: List.zipWith (fun x y => x - y) rest (a0 :: rest)).sum =
      rest.getLastD a0 + 1 := by
  induction rest with
  | nil => intro a0; simp
  | cons b t ih =>
    intro a0
    have hIH := ih b
    simp only [List.zipWith_cons_cons, List.sum_cons, List.getLastD_cons] at hIH ⊢
    omega

theorem getLastD_map_cast (l : List ℕ) : ∀ d : ℕ,
    (l.map fun (a : ℕ) => (a : ℤ)).getLastD (d : ℤ) = ((l.getLastD d : ℕ) : ℤ) := by
  induction l with
  | nil => intro d; rfl
  | cons b t ih =>
    intro d
    rw [List.map_cons, List.getLastD_cons, List.getLastD_cons]
    exact ih b

/-- Claim C7: for every spectrum on at least 10 frequency bins (the domain on
which `log_avg` returns at all, see C9) and matching-length spectrum values,
`log_avg` succeeds and its bands partition the input bins: the per-band
sample counts `Ne - Ns + 1` sum to the input length, the first band starts at
bin 0, the last band ends at the last bin, and each band starts exactly one
past the previous band's end. -/
theorem log_avg_conserves_bins (f s : List ℝ) (n : ℕ)
    (h10 : 10 ≤ f.length) (hs : s.length = f.length) :
    ∃ F S dF nS nE, log_avg f s n = some (F, S, dF, nS, nE) ∧
      (List.zipWith (fun e b => e - b + 1) nE nS).sum = (f.length : ℤ) ∧
      nS.head? = some 0 ∧
      nE.getLast? = some ((f.length : ℤ) - 1) ∧
      nS.tail = nE.dropLast.map (fun e => e + 1) := by
  have hlen : 0 < f.length := by omega
  obtain ⟨lfLast, h1⟩ := pyGet_some_of_bounds (f.map Real.log)
    (((f.map Real.log).length : ℤ) - 1) (by simp only [List.length_map]; omega)
    (by simp only [List.length_map]; omega)
  obtain ⟨lf0, h2⟩ := pyGet_some_of_bounds (f.map Real.log) 0 (by norm_num)
    (by simp only [List.length_map]; omega)
  have hAAlt := log_avg_AA_mem_lt f lfLast lf0 n hlen
  have hCflen : (cumsumR f).length = f.length := by
    simp [cumsumR, List.length_scanl]
  have hCslen : (cumsumR s).length = f.length := by
    simp [cumsumR, List.length_scanl, hs]
  obtain ⟨CfA, h3⟩ := pyGets_some (cumsumR f)
    ((log_avg_AA f lfLast lf0 n).map fun (a : ℕ) => (a : ℤ))
    (by
      intro k hk
      obtain ⟨a, ha, rfl⟩ := List.mem_map.mp hk
      have := hAAlt a ha
      constructor
      · omega
      · rw [hCflen]; exact_mod_cast this)
  obtain ⟨CsA, h4⟩ := pyGets_some (cumsumR s)
    ((log_avg_AA f lfLast lf0 n).map fun (a : ℕ) => (a : ℤ))
    (by
      intro k hk
      obtain ⟨a, ha, rfl⟩ := List.mem_map.mp hk
      have := hAAlt a ha
      constructor
      · omega
      · rw [hCslen]; exact_mod_cast this)
  obtain ⟨f9v, h5⟩ := pyGet_some_of_bounds f 9 (by norm_num) (by exact_mod_cast h10)
  obtain ⟨f8v, h6⟩ := pyGet_some_of_bounds f 8 (by norm_num)
    (by have : (8 : ℤ) < (10 : ℕ) := by norm_num
        exact lt_of_lt_of_le this (by exact_mod_cast h10))
  refine ⟨List.zipWith (fun (a : ℝ) (c : ℤ) => a / (c : ℝ)) (diffsFrom CfA)
      (bandCounts (log_avg_AA f lfLast lf0 n)),
    List.zipWith (fun (a : ℝ) (c : ℤ) => a / (c : ℝ)) (diffsFrom CsA)
      (bandCounts (log_avg_AA f lfLast lf0 n)),
    (bandCounts (log_avg_AA f lfLast lf0 n)).map fun (c : ℤ) => (c : ℝ) * (f9v - f8v),
    bandStarts (log_avg_AA f lfLast lf0 n),
    bandEnds (log_avg_AA f lfLast lf0 n), ?_, ?_, ?_, ?_, ?_⟩
  · unfold log_avg
    simp only [h1, h2, h3, h4, h5, h6, Option.bind_eq_bind, Option.some_bind]
    rfl
  · rcases hAA : log_avg_AA f lfLast lf0 n with - | ⟨a0, rest⟩
    · exact absurd hAA (log_avg_AA_ne_nil f lfLast lf0 n)
    · have hg := log_avg_AA_getLast? f lfLast lf0 n
      rw [hAA] at hg
      have hlast : rest.getLastD a0 = f.length - 1 := by
        have h2 : (a0 :: rest).getLastD 0 = f.length - 1 := by
          rw [List.getLastD_eq_getLast?, hg]
          rfl
        rwa [List.getLastD_cons] at h2
      have hstart : bandStarts (a0 :: rest) =
          0 :: ((((a0 :: rest).map fun (a : ℕ) => (a : ℤ)).dropLast).map fun x => x + 1) := by
        rw [bandStarts, dropLast_map_comm, List.map_map]
        rfl
      rw [hstart, bandEnds, List.map_cons, zipWith_ends_starts,
        show ((a0 : ℤ) - 0 + 1) = (a0 : ℤ) + 1 by ring, telescope_sum,
        getLastD_map_cast, hlast]
      omega
  · rfl
  · rw [bandEnds, List.getLast?_map, log_avg_AA_getLast? f lfLast lf0 n]
    exact congrArg some (by omega : ((f.length - 1 : ℕ) : ℤ) = (f.length : ℤ) - 1)
  · rw [bandStarts, bandEnds, List.tail_cons, dropLast_map_comm, List.map_map]
    rfl

theorem zipWith_ends_starts_eq_bandCounts (AA : List ℕ) (h : AA ≠ []) :
    List.zipWith (fun e b => e - b + 1) (bandEnds AA) (bandStarts AA) =
      bandCounts AA := by
  cases AA with
  | nil => exact absurd rfl h
  | cons a0 rest =>
    have hstart : bandStarts (a0 :: rest) =
        0 :: ((((a0 :: rest).map fun (a : ℕ) => (a : ℤ)).dropLast).map fun x => x + 1) := by
      rw [bandStarts, dropLast_map_comm, List.map_map]
      rfl
    rw [hstart, bandEnds, List.map_cons, zipWith_ends_starts, bandCounts,
      show ((a0 : ℤ) - 0 + 1) = (a0 : ℤ) + 1 by ring, List.map_cons]

/-- Claim C7 (witness): a concrete 10-bin spectrum; the hypotheses are
discharged on the nose and the conservation facts follow by the theorem. -/
theorem log_avg_conserves_bins_witness :
    ∃ F S dF nS nE,
      log_avg [1, 2, 3, 4, 5, 6, 7, 8, 9, 10] [1, 1, 1, 1, 1, 1, 1, 1, 1, 1] 4 =
        some (F, S, dF, nS, nE) ∧
      (List.zipWith (fun e b => e - b + 1) nE nS).sum =
        (([1, 2, 3, 4, 5, 6, 7, 8, 9, 10] : List ℝ).length : ℤ) ∧
      nS.head? = some 0 ∧
      nE.getLast? = some ((([1, 2, 3, 4, 5, 6, 7, 8, 9, 10] : List ℝ).length : ℤ) - 1) ∧
      nS.tail = nE.dropLast.map (fun e => e + 1) :=
  log_avg_conserves_bins [1, 2, 3, 4, 5, 6, 7, 8, 9, 10]
    [1, 1, 1, 1, 1, 1, 1, 1, 1, 1] 4 (by simp) (by simp)

theorem pyGet_map_range (m : ℕ) (g : ℕ → ℝ) (k : ℕ) (hk : k < m) :
    pyGet ((List.range m).map g) (k : ℤ) = some (g k) := by
  rw [pyGet, if_pos ⟨by omega, by rw [List.length_map, List.length_range]; exact_mod_cast hk⟩]
  rw [show ((k : ℤ)).toNat = k from rfl, List.get?_map, List.get?_range hk]
  rfl

/-- Claim C9: every bandwidth of `log_avg` is the per-band sample count times
the fixed grid step `f[9] - f[8]`.  Consequently (a) for every input with
fewer than 10 frequencies the access `f[9]` is out of bounds and the call
fails with an index error (`none`), and (b) on a uniformly spaced frequency
grid `f_i = f0 + i*d` the returned bandwidths equal the per-band sample
counts `Ne - Ns + 1` times the true grid spacing `d`. -/
theorem log_avg_needs_ten_bins :
    (∀ (f s : List ℝ) (n : ℕ), f.length < 10 → log_avg f s n = none) ∧
    (∀ (m : ℕ) (f0 d : ℝ) (s : List ℝ) (n : ℕ), 10 ≤ m → s.length = m →
      ∃ F S dF nS nE,
        log_avg ((List.range m).map fun (i : ℕ) => f0 + (i : ℝ) * d) s n =
          some (F, S, dF, nS, nE) ∧
        dF = (List.zipWith (fun e b => e - b + 1) nE nS).map
          fun (c : ℤ) => (c : ℝ) * d) := by
  constructor
  · intro f s n hlt
    have h9 : pyGet f 9 = none := pyGet_none_of_ge f 9 (by omega)
    unfold log_avg
    cases h1 : pyGet (f.map Real.log) (((f.map Real.log).length : ℤ) - 1) with
    | none => simp only [h1, Option.bind_eq_bind, Option.none_bind]
    | some lfLast =>
      simp only [h1, Option.bind_eq_bind, Option.some_bind]
      cases h2 : pyGet (f.map Real.log) 0 with
      | none => simp only [h2, Option.none_bind]
      | some lf0 =>
        simp only [h2, Option.some_bind]
        cases h3 : pyGets (cumsumR f)
            ((log_avg_AA f lfLast lf0 n).map fun (a : ℕ) => (a : ℤ)) with
        | none => simp only [h3, Option.none_bind]
        | some CfA =>
          simp only [h3, Option.some_bind]
          cases h4 : pyGets (cumsumR s)
              ((log_avg_AA f lfLast lf0 n).map fun (a : ℕ) => (a : ℤ)) with
          | none => simp only [h4, Option.none_bind]
          | some CsA =>
            simp only [h4, Option.some_bind, h9, Option.none_bind]
  · intro m f0 d s n h10 hsm
    set f : List ℝ := (List.range m).map fun (i : ℕ) => f0 + (i : ℝ) * d with hf
    have hflen : f.length = m := by rw [hf, List.length_map, List.length_range]
    have hlen : 0 < f.length := by omega
    obtain ⟨lfLast, h1⟩ := pyGet_some_of_bounds (f.map Real.log)
      (((f.map Real.log).length : ℤ) - 1) (by simp only [List.length_map]; omega)
      (by simp only [List.length_map]; omega)
    obtain ⟨lf0, h2⟩ := pyGet_some_of_bounds (f.map Real.log) 0 (by norm_num)
      (by simp only [List.length_map]; omega)
    have hAAlt := log_avg_AA_mem_lt f lfLast lf0 n hlen
    have hCflen : (cumsumR f).length = f.length := by
      simp [cumsumR, List.length_scanl]
    have hCslen : (cumsumR s).length = f.length := by
      simp [cumsumR, List.length_scanl, hsm, hflen]
    obtain ⟨CfA, h3⟩ := pyGets_some (cumsumR f)
      ((log_avg_AA f lfLast lf0 n).map fun (a : ℕ) => (a : ℤ))
      (by
        intro k hk
        obtain ⟨a, ha, rfl⟩ := List.mem_map.mp hk
        have := hAAlt a ha
        exact ⟨by omega, by rw [hCflen]; exact_mod_cast this⟩)
    obtain ⟨CsA, h4⟩ := pyGets_some (cumsumR s)
      ((log_avg_AA f lfLast lf0 n).map fun (a : ℕ) => (a : ℤ))
      (by
        intro k hk
        obtain ⟨a, ha, rfl⟩ := List.mem_map.mp hk
        have := hAAlt a ha
        exact ⟨by omega, by rw [hCslen]; exact_mod_cast this⟩)
    have h5 : pyGet f 9 = some (f0 + ((9 : ℕ) : ℝ) * d) :=
      pyGet_map_range m _ 9 (by omega)
    have h6 : pyGet f 8 = some (f0 + ((8 : ℕ) : ℝ) * d) :=
      pyGet_map_range m _ 8 (by omega)
    refine ⟨List.zipWith (fun (a : ℝ) (c : ℤ) => a / (c : ℝ)) (diffsFrom CfA)
        (bandCounts (log_avg_AA f lfLast lf0 n)),
      List.zipWith (fun (a : ℝ) (c : ℤ) => a / (c : ℝ)) (diffsFrom CsA)
        (bandCounts (log_avg_AA f lfLast lf0 n)),
      (bandCounts (log_avg_AA f lfLast lf0 n)).map
        fun (c : ℤ) => (c : ℝ) * ((f0 + ((9 : ℕ) : ℝ) * d) - (f0 + ((8 : ℕ) : ℝ) * d)),
      bandStarts (log_avg_AA f lfLast lf0 n),
      bandEnds (log_avg_AA f lfLast lf0 n), ?_, ?_⟩
    · unfold log_avg
      simp only [h1, h2, h3, h4, h5, h6, Option.bind_eq_bind, Option.some_bind]
      rfl
    · rw [zipWith_ends_starts_eq_bandCounts _ (log_avg_AA_ne_nil f lfLast lf0 n),
        show (f0 + ((9 : ℕ) : ℝ) * d) - (f0 + ((8 : ℕ) : ℝ) * d) = d by push_cast; ring]

/-- Claim C9 (witness): part (a) applied to a concrete 3-bin spectrum (the
call fails), and part (b) applied to the concrete uniform grid
`1, 3, 5, ..., 19` with step 2. -/
theorem log_avg_needs_ten_bins_witness :
    log_avg [1, 2, 3] [4, 5, 6] 5 = none ∧
    (∃ F S dF nS nE,
      log_avg ((List.range 10).map fun (i : ℕ) => (1 : ℝ) + (i : ℝ) * 2)
          [1, 1, 1, 1, 1, 1, 1, 1, 1, 1] 3 = some (F, S, dF, nS, nE) ∧
      dF = (List.zipWith (fun e b => e - b + 1) nE nS).map
        fun (c : ℤ) => (c : ℝ) * 2) :=
  ⟨log_avg_needs_ten_bins.1 [1, 2, 3] [4, 5, 6] 5 (by simp),
   log_avg_needs_ten_bins.2 10 1 2 [1, 1, 1, 1, 1, 1, 1, 1, 1, 1] 3 (by norm_num)
     (by simp)⟩

/-! ### Zero-crossing wave statistics: `wave_statistics` and `zero_crossings`
(process_mopak.py 185-265)

Displacements are reals.  `scipy.signal.detrend` (linear least squares) is
embedded through the closed-form least-squares line fit; `np.std` is the
population standard deviation; `scipy.signal.welch` and the boxcar
`filtfilt` smoother are external scipy calls abstracted as the parameters
`welchF` (returning the frequency grid and raw spectrum) and `smoothF` —
the claims settled here do not depend on their values.  The NaN periods of
the low-energy branch are modeled as `none`. -/

/-- The least-squares slope of `scipy.signal.detrend`'s linear fit over
sample indices `0, ..., n-1`. -/
noncomputable def detrendSlope (y : List ℝ) : ℝ :=
  let xs : List ℝ := (List.range y.length).map fun (i : ℕ) => (i : ℝ)
  let xbar := xs.sum / (y.length : ℝ)
  let ybar := y.sum / (y.length : ℝ)
  (List.zipWith (fun x yv => (x - xbar) * (yv - ybar)) xs y).sum /
    (xs.map fun x => (x - xbar) ^ 2).sum

/-- `scipy.signal.detrend(y)` with the default linear type: residual of the
least-squares straight-line fit over sample indices `0, ..., n-1`. -/
noncomputable def detrendLinear (y : List ℝ) : List ℝ :=
  let xs : List ℝ := (List.range y.length).map fun (i : ℕ) => (i : ℝ)
  let xbar := xs.sum / (y.length : ℝ)
  let ybar := y.sum / (y.length : ℝ)
  let intercept := ybar - detrendSlope y * xbar
  List.zipWith (fun x yv => yv - (intercept + detrendSlope y * x)) xs y

/-- `np.mean`. -/
noncomputable def listMean (l : List ℝ) : ℝ := l.sum / (l.length : ℝ)

/-- `np.std` (population standard deviation). -/
noncomputable def listStd (l : List ℝ) : ℝ :=
  Real.sqrt (listMean (l.map fun x => (x - listMean l) ^ 2))

open scoped Classical in
/-- `np.sign`. -/
noncomputable def signR (x : ℝ) : ℝ :=
  if x < 0 then -1 else if 0 < x then 1 else 0

open scoped Classical in
/-- Number of adjacent sign changes, `len(np.where(sw1 != sw2)[0])` in the
source. -/
noncomputable def crossCount (l : List ℝ) : ℕ :=
  (List.zipWith (fun a b => if signR a = signR b then (0 : ℕ) else 1) l l.tail).sum

/-- Shallow embedding of `zero_crossings` (with its default
`detrend=False`): remove the mean, count sign changes, average period
`1/(count/2/T)`. -/
noncomputable def zero_crossings (heave : List ℝ) (fs : ℝ) : ℝ :=
  let T : ℝ := ((heave.length : ℝ) - 1) / fs
  let fm := (crossCount (heave.map fun x => x - listMean heave) : ℝ) / 2 / T
  1 / fm

open scoped Classical in
/-- Shallow embedding of `wave_statistics`: detrend, `Hsig = 4*std`,
`Havg = mean`; above the 0.2 m threshold compute the peak period from the
smoothed welch spectrum (low band forced to `1e-7`, peak frequency averaged
over the argmax set) and the average period from the zero crossings;
otherwise both periods are NaN (`none`). -/
noncomputable def wave_statistics
    (welchF : List ℝ → ℝ → ℕ → List ℝ × List ℝ) (smoothF : List ℝ → List ℝ)
    (heave : List ℝ) (fs : ℝ) (npt : ℕ) : ℝ × ℝ × Option ℝ × Option ℝ :=
  let hd := detrendLinear heave
  let Hsig := 4 * listStd hd
  let Havg := listMean hd
  if 0.2 < Hsig then
    let fr := (welchF hd fs npt).1
    let wxx := (welchF hd fs npt).2
    let wxx1 := match wxx with
      | [] => []
      | _ :: t => wxx.getD 1 0 :: t
    let wxxf := smoothF wxx1
    let wxxf2 := List.zipWith (fun fv wv => if fv < 0.01 then 1 / 10000000 else wv) fr wxxf
    let mx := wxxf2.foldr max (wxxf2.headD 0)
    let peaks := ((List.zipWith (fun fv wv => (fv, wv)) fr wxxf2).filter
      fun p => p.2 = mx).map fun p => p.1
    let fr1 := listMean peaks
    (Hsig, Havg, some (1 / fr1), some (zero_crossings hd fs))
  else
    (Hsig, Havg, none, none)

theorem zipWith_detrend_sum (intercept slope : ℝ) :
    ∀ (xs ys : List ℝ), xs.length = ys.length →
      (List.zipWith (fun x yv => yv - (intercept + slope * x)) xs ys).sum =
        ys.sum - intercept * xs.length - slope * xs.sum := by
  intro xs
  induction xs with
  | nil =>
    intro ys h
    cases ys
    · simp
    · simp at h
  | cons x t ih =>
    intro ys h
    cases ys with
    | nil => simp at h
    | cons yv tv =>
      simp only [List.zipWith_cons_cons, List.sum_cons, List.length_cons]
      rw [ih tv (by simpa using h)]
      push_cast
      ring

theorem detrendLinear_sum_zero (y : List ℝ) (h : y ≠ []) :
    (detrendLinear y).sum = 0 := by
  have hn : (y.length : ℝ) ≠ 0 := by
    have := List.length_pos.mpr h
    positivity
  unfold detrendLinear
  rw [zipWith_detrend_sum _ _ _ y (by simp)]
  simp only [List.length_map, List.length_range]
  generalize detrendSlope y = sl
  generalize ((List.range y.length).map fun (i : ℕ) => (i : ℝ)).sum = X
  field_simp

theorem detrendLinear_mean_zero (y : List ℝ) (h : y ≠ []) :
    listMean (detrendLinear y) = 0 := by
  rw [listMean, detrendLinear_sum_zero y h, zero_div]

/-- Claim C8: `wave_statistics` returns as its `Havg` ("mean wave height")
component exactly the arithmetic mean of the linearly detrended displacement,
which is identically zero in real arithmetic — the `mean_wave_height` output
carries no wave information. -/
theorem mean_wave_height_is_zero (welchF : List ℝ → ℝ → ℕ → List ℝ × List ℝ)
    (smoothF : List ℝ → List ℝ) (heave : List ℝ) (fs : ℝ) (npt : ℕ)
    (h : heave ≠ []) :
    (wave_statistics welchF smoothF heave fs npt).2.1 =
      listMean (detrendLinear heave) ∧
    (wave_statistics welchF smoothF heave fs npt).2.1 = 0 := by
  have hmean := detrendLinear_mean_zero heave h
  constructor
  · simp only [wave_statistics]
    split_ifs <;> rfl
  · simp only [wave_statistics]
    split_ifs <;> exact hmean

/-- Claim C8 (witness): the mean output at the concrete series `[1, 2]`. -/
theorem mean_wave_height_is_zero_witness :
    (wave_statistics (fun _ _ _ => ([], [])) id [1, 2] 1 4).2.1 =
      listMean (detrendLinear [1, 2]) ∧
    (wave_statistics (fun _ _ _ => ([], [])) id [1, 2] 1 4).2.1 = 0 :=
  mean_wave_height_is_zero (fun _ _ _ => ([], [])) id [1, 2] 1 4 (by simp)

theorem sum_nonpos_of_all_nonpos : ∀ l : List ℝ, (∀ x ∈ l, x ≤ 0) → l.sum ≤ 0 := by
  intro l
  induction l with
  | nil => intro _; simp
  | cons b t ih =>
    intro hall
    simp only [List.sum_cons]
    have hb := hall b (List.mem_cons_self b t)
    have ht := ih fun x hx => hall x (List.mem_cons_of_mem b hx)
    linarith

theorem sum_neg_of_mem_neg {l : List ℝ} (hall : ∀ x ∈ l, x ≤ 0) {a : ℝ}
    (ha : a ∈ l) (haneg : a < 0) : l.sum < 0 := by
  induction l with
  | nil => simp at ha
  | cons b t ih =>
    simp only [List.sum_cons]
    have hb := hall b (List.mem_cons_self b t)
    have ht := sum_nonpos_of_all_nonpos t fun x hx => hall x (List.mem_cons_of_mem b hx)
    rcases List.mem_cons.mp ha with rfl | hmem
    · linarith
    · have := ih (fun x hx => hall x (List.mem_cons_of_mem b hx)) hmem
      linarith

theorem sum_map_neg (l : List ℝ) : (l.map Neg.neg).sum = -l.sum := by
  induction l with
  | nil => simp
  | cons b t ih =>
    simp only [List.map_cons, List.sum_cons, ih]
    ring

theorem exists_pos_neg_of_sum_zero {l : List ℝ} (hs : l.sum = 0) {x0 : ℝ}
    (hx : x0 ∈ l) (hne : x0 ≠ 0) :
    (∃ p ∈ l, 0 < p) ∧ (∃ q ∈ l, q < 0) := by
  constructor
  · by_contra hno
    push_neg at hno
    rcases lt_or_gt_of_ne hne with hlt | hgt
    · have := sum_neg_of_mem_neg hno hx hlt
      linarith
    · have := hno x0 hx
      linarith
  · by_contra hno
    push_neg at hno
    have hmap : ∀ x ∈ l.map Neg.neg, x ≤ 0 := by
      intro x hxm
      obtain ⟨v, hv, rfl⟩ := List.mem_map.mp hxm
      have := hno v hv
      linarith
    rcases lt_or_gt_of_ne hne with hlt | hgt
    · have := hno x0 hx
      linarith
    · have hmem : -x0 ∈ l.map Neg.neg := List.mem_map.mpr ⟨x0, hx, rfl⟩
      have hsum : (l.map Neg.neg).sum < 0 := sum_neg_of_mem_neg hmap hmem (by linarith)
      rw [sum_map_neg l, hs] at hsum
      simp at hsum

theorem signs_all_eq_of_crossCount_zero :
    ∀ l : List ℝ, crossCount l = 0 → ∀ a ∈ l, ∀ b ∈ l, signR a = signR b := by
  intro l
  induction l with
  | nil => intro _ a ha; simp at ha
  | cons x t ih =>
    intro hc a ha b hb
    cases t with
    | nil =>
      simp only [List.mem_singleton] at ha hb
      rw [ha, hb]
    | cons y t2 =>
      have hsplit : (if signR x = signR y then (0 : ℕ) else 1) +
          crossCount (y :: t2) = 0 := by
        simpa [crossCount, List.zipWith_cons_cons] using hc
      have hxy : signR x = signR y := by
        by_contra hne
        rw [if_neg hne] at hsplit
        omega
      have hrest : crossCount (y :: t2) = 0 := by omega
      have hall := ih hrest
      have hx_any : ∀ c ∈ x :: y :: t2, signR c = signR y := by
        intro c hcmem
        rcases List.mem_cons.mp hcmem with rfl | hmem
        · exact hxy
        · exact hall c hmem y (List.mem_cons_self y t2)
      rw [hx_any a ha, hx_any b hb]

theorem crossCount_pos_of_pos_neg {l : List ℝ} {p q : ℝ} (hp : p ∈ l)
    (hq : q ∈ l) (hppos : 0 < p) (hqneg : q < 0) : 1 ≤ crossCount l := by
  by_contra hno
  have hzero : crossCount l = 0 := by omega
  have := signs_all_eq_of_crossCount_zero l hzero p hp q hq
  rw [signR, signR, if_neg (by linarith), if_pos hppos, if_pos hqneg] at this
  norm_num at this

/-- Claim C4: the significant and average wave periods of `wave_statistics`
are NaN (`none`) exactly when the significant wave height `Hsig = 4*std` does
not exceed 0.2 m; above the threshold the average period is the zero-crossing
estimate and the zero-crossing count is at least 1 (the detrended series has
zero mean and positive variance, so it takes both signs and the period
estimate involves no division by zero). -/
theorem wave_periods_nan_iff (welchF : List ℝ → ℝ → ℕ → List ℝ × List ℝ)
    (smoothF : List ℝ → List ℝ) (heave : List ℝ) (fs : ℝ) (npt : ℕ)
    (h : heave ≠ []) :
    (((wave_statistics welchF smoothF heave fs npt).2.2.1 = none ↔
        (wave_statistics welchF smoothF heave fs npt).1 ≤ 0.2) ∧
      ((wave_statistics welchF smoothF heave fs npt).2.2.2 = none ↔
        (wave_statistics welchF smoothF heave fs npt).1 ≤ 0.2)) ∧
    (0.2 < (wave_statistics welchF smoothF heave fs npt).1 →
      (wave_statistics welchF smoothF heave fs npt).2.2.2 =
        some (zero_crossings (detrendLinear heave) fs) ∧
      1 ≤ crossCount ((detrendLinear heave).map
        fun x => x - listMean (detrendLinear heave))) := by
  have hmean := detrendLinear_mean_zero heave h
  by_cases hc : (0.2 : ℝ) < 4 * listStd (detrendLinear heave)
  · have hvarpos : 0 < listMean ((detrendLinear heave).map
        fun x => (x - listMean (detrendLinear heave)) ^ 2) := by
      by_contra hnp
      push_neg at hnp
      have : listStd (detrendLinear heave) = 0 := by
        rw [listStd, Real.sqrt_eq_zero_of_nonpos hnp]
      rw [this] at hc
      norm_num at hc
    have hx0 : ∃ x0 ∈ detrendLinear heave, x0 ≠ 0 := by
      by_contra hall
      push_neg at hall
      have hz : ((detrendLinear heave).map
          fun x => (x - listMean (detrendLinear heave)) ^ 2).sum = 0 := by
        apply List.sum_eq_zero
        intro v hv
        obtain ⟨w, hw, rfl⟩ := List.mem_map.mp hv
        rw [hall w hw, hmean]
        ring
      rw [listMean, hz, zero_div] at hvarpos
      exact lt_irrefl 0 hvarpos
    obtain ⟨x0, hx0mem, hx0ne⟩ := hx0
    obtain ⟨⟨p, hp, hppos⟩, ⟨q, hq, hqneg⟩⟩ :=
      exists_pos_neg_of_sum_zero (detrendLinear_sum_zero heave h) hx0mem hx0ne
    have hmap : (detrendLinear heave).map
        (fun x => x - listMean (detrendLinear heave)) = detrendLinear heave := by
      rw [hmean]
      simp
    have hcross : 1 ≤ crossCount ((detrendLinear heave).map
        fun x => x - listMean (detrendLinear heave)) := by
      rw [hmap]
      exact crossCount_pos_of_pos_neg hp hq hppos hqneg
    simp only [wave_statistics]
    rw [if_pos hc]
    refine ⟨⟨⟨fun hx => ?_, fun hx => ?_⟩, ⟨fun hx => ?_, fun hx => ?_⟩⟩,
      fun _ => ⟨rfl, hcross⟩⟩
    · simp at hx
    · exact absurd hx (not_le.mpr hc)
    · simp at hx
    · exact absurd hx (not_le.mpr hc)
  · simp only [wave_statistics]
    rw [if_neg hc]
    exact ⟨⟨⟨fun _ => not_lt.mp hc, fun _ => rfl⟩, ⟨fun _ => not_lt.mp hc, fun _ => rfl⟩⟩,
      fun h0 => absurd h0 hc⟩

/-- Claim C4 (witness): the theorem applied to the concrete series `[1, -1]`
with a trivial welch stub. -/
theorem wave_periods_nan_iff_witness :
    (((wave_statistics (fun _ _ _ => ([], [])) id [1, -1] 2 4).2.2.1 = none ↔
        (wave_statistics (fun _ _ _ => ([], [])) id [1, -1] 2 4).1 ≤ 0.2) ∧
      ((wave_statistics (fun _ _ _ => ([], [])) id [1, -1] 2 4).2.2.2 = none ↔
        (wave_statistics (fun _ _ _ => ([], [])) id [1, -1] 2 4).1 ≤ 0.2)) ∧
    (0.2 < (wave_statistics (fun _ _ _ => ([], [])) id [1, -1] 2 4).1 →
      (wave_statistics (fun _ _ _ => ([], [])) id [1, -1] 2 4).2.2.2 =
        some (zero_crossings (detrendLinear [1, -1]) 2) ∧
      1 ≤ crossCount ((detrendLinear [1, -1]).map
        fun x => x - listMean (detrendLinear [1, -1]))) :=
  wave_periods_nan_iff (fun _ _ _ => ([], [])) id [1, -1] 2 4 (by simp)

/-! ### PUV wave spectra: `wave_spectra` (process_mopak.py 678-815)

The discrete Fourier transform of `scipy.fft.fft` is embedded directly over
the complex numbers; power and cross spectra, the frequency grid
`np.arange(1, (n+1)/2) / Dt`, the six `log_avg` band averagings, the
low-frequency cutoff filter, the direction/spread formulas and the
`min_spec` NaN-masking (modeled as `Option ℝ` entries) all follow the source
line by line.  `hp`, `hv`, `max_fac` and `n_dir` are accepted but unused,
exactly as in the source body. -/

/-- `scipy.fft.fft` coefficient `k` of a real series. -/
noncomputable def fftAt (x : List ℝ) (k : ℕ) : ℂ :=
  (x.enum.map fun (jv : ℕ × ℝ) =>
    ((jv.2 : ℝ) : ℂ) * Complex.exp (-(2 * (Real.pi : ℂ) * Complex.I) *
      ((jv.1 : ℕ) : ℂ) * ((k : ℕ) : ℂ) / ((x.length : ℕ) : ℂ))).sum

/-- The full DFT of a real series. -/
noncomputable def fftL (x : List ℝ) : List ℂ :=
  (List.range x.length).map fun (k : ℕ) => fftAt x k

open scoped Classical in
/-- The body of `wave_spectra` after the odd-length truncation: spectra,
band averaging, cutoff, direction and spread. -/
noncomputable def wave_spectra_core (u v p : List ℝ) (dt : ℝ) (nF : ℕ)
    (hp hv : ℝ) (params : ℝ × ℝ × ℝ × ℝ) :
    Option (List ℝ × List ℝ × List (Option ℝ) × List (Option ℝ) ×
      List ℝ × List ℝ × List ℤ) := do
  let lf_cutoff := params.1
  let min_spec := params.2.2.1
  let n := p.length
  let Dt := (n : ℝ) * dt
  let f := (List.range (n / 2)).map fun (i : ℕ) => (((i + 1 : ℕ) : ℝ)) / Dt
  let f0 ← pyGet f 0
  let u_power := (((fftL u).drop 1).take (n / 2)).map
    fun (z : ℂ) => Complex.abs (z ^ 2) * 2 / (n : ℝ) ^ 2 / f0
  let v_power := (((fftL v).drop 1).take (n / 2)).map
    fun (z : ℂ) => Complex.abs (z ^ 2) * 2 / (n : ℝ) ^ 2 / f0
  let p_power := (((fftL p).drop 1).take (n / 2)).map
    fun (z : ℂ) => Complex.abs (z ^ 2) * 2 / (n : ℝ) ^ 2 / f0
  let pu_power := ((List.zipWith
    (fun (a b : ℂ) => (a * (starRingEnd ℂ) b).re * 2 / (n : ℝ) ^ 2 / f0)
    (fftL p) (fftL u)).drop 1).take (n / 2)
  let pv_power := ((List.zipWith
    (fun (a b : ℂ) => (a * (starRingEnd ℂ) b).re * 2 / (n : ℝ) ^ 2 / f0)
    (fftL p) (fftL v)).drop 1).take (n / 2)
  let uv_power := ((List.zipWith
    (fun (a b : ℂ) => (a * (starRingEnd ℂ) b).re * 2 / (n : ℝ) ^ 2 / f0)
    (fftL u) (fftL v)).drop 1).take (n / 2)
  let ⟨_, Cuu, _, _, _⟩ ← log_avg f u_power nF
  let ⟨_, Cvv, _, _, _⟩ ← log_avg f v_power nF
  let ⟨_, Cpp, _, _, _⟩ ← log_avg f p_power nF
  let ⟨_, Cpu, _, _, _⟩ ← log_avg f pu_power nF
  let ⟨_, Cpv, dF, nS, nE⟩ ← log_avg f pv_power nF
  let ⟨F, Cuv, _, _, _⟩ ← log_avg f uv_power nF
  let dof := List.zipWith (fun e b => 2 * (e - b + 1)) nE nS
  let keepR : List ℝ → List ℝ := fun l =>
    ((List.zipWith (fun (fv xv : ℝ) => (fv, xv)) F l).filter
      fun q => lf_cutoff < q.1).map fun q => q.2
  let keepZ : List ℤ → List ℤ := fun l =>
    ((List.zipWith (fun (fv : ℝ) (xv : ℤ) => (fv, xv)) F l).filter
      fun q => lf_cutoff < q.1).map fun q => q.2
  let F2 := F.filter fun fv => lf_cutoff < fv
  let dF2 := keepR dF
  let dof2 := keepZ dof
  let Cuu2 := keepR Cuu
  let Cvv2 := keepR Cvv
  let Cpp2 := keepR Cpp
  let Cpu2 := keepR Cpu
  let Cpv2 := keepR Cpv
  let Cuv2 := keepR Cuv
  let u_spectra := List.zipWith (fun a b => a + b) Cuu2 Cvv2
  let p_spectra := Cpp2
  let Tdir := List.zipWith (fun cpu cpv => 57.296 * arctan3 cpu cpv) Cpu2 Cpv2
  let R2 := List.zipWith3 (fun cuu cvv cuv =>
    Real.sqrt ((cuu - cvv) ^ 2 + 4 * cuv ^ 2) / (cuu + cvv)) Cuu2 Cvv2 Cuv2
  let Ts := R2.map fun r => 57.296 * Real.sqrt ((1 - r) / 2)
  let TdirN := List.zipWith
    (fun (psp td : ℝ) => if psp < min_spec then (none : Option ℝ) else some td)
    p_spectra Tdir
  let TsN := List.zipWith
    (fun (psp tsv : ℝ) => if psp < min_spec then (none : Option ℝ) else some tsv)
    p_spectra Ts
  return (u_spectra, p_spectra, TdirN, TsN, F2, dF2, dof2)

/-- Shallow embedding of `wave_spectra`: drop the last sample of `u`, `v`
and `p` when the pressure series has odd length, then run the spectral body
on what remains. -/
noncomputable def wave_spectra (u v p : List ℝ) (dt : ℝ) (nF : ℕ)
    (hp hv : ℝ) (params : ℝ × ℝ × ℝ × ℝ) :
    Option (List ℝ × List ℝ × List (Option ℝ) × List (Option ℝ) ×
      List ℝ × List ℝ × List ℤ) :=
  if p.length % 2 = 1 then
    wave_spectra_core u.dropLast v.dropLast p.dropLast dt nF hp hv params
  else
    wave_spectra_core u v p dt nF hp hv params

/-- Claim C10: for odd-length input `wave_spectra` silently drops the final
sample of each series before any spectral computation, so its output equals
the output on the first `n-1` samples; even-length inputs are passed to the
spectral body in full. -/
theorem wave_spectra_truncates_odd (u v p : List ℝ) (dt : ℝ) (nF : ℕ)
    (hp hv : ℝ) (params : ℝ × ℝ × ℝ × ℝ) :
    (p.length % 2 = 1 → wave_spectra u v p dt nF hp hv params =
      wave_spectra u.dropLast v.dropLast p.dropLast dt nF hp hv params) ∧
    (p.length % 2 = 0 → wave_spectra u v p dt nF hp hv params =
      wave_spectra_core u v p dt nF hp hv params) := by
  constructor
  · intro hodd
    have hdrop : p.dropLast.length % 2 = 0 := by
      rw [List.length_dropLast]
      omega
    rw [wave_spectra, wave_spectra, if_pos hodd, if_neg (by omega)]
  · intro heven
    rw [wave_spectra, if_neg (by omega)]

/-- Claim C10 (witness): the theorem applied to a concrete odd-length input
(length 3, truncated) and a concrete even-length input (length 2, passed in
full). -/
theorem wave_spectra_truncates_odd_witness :
    (wave_spectra [1, 2, 3] [4, 5, 6] [7, 8, 9] 1 10 0 0 (3 / 100, 200, 1 / 10, 0) =
      wave_spectra ([1, 2, 3] : List ℝ).dropLast ([4, 5, 6] : List ℝ).dropLast
        ([7, 8, 9] : List ℝ).dropLast 1 10 0 0 (3 / 100, 200, 1 / 10, 0)) ∧
    (wave_spectra [1, 2] [3, 4] [5, 6] 1 10 0 0 (3 / 100, 200, 1 / 10, 0) =
      wave_spectra_core [1, 2] [3, 4] [5, 6] 1 10 0 0 (3 / 100, 200, 1 / 10, 0)) :=
  ⟨(wave_spectra_truncates_odd [1, 2, 3] [4, 5, 6] [7, 8, 9] 1 10 0 0
      (3 / 100, 200, 1 / 10, 0)).1 (by simp),
   (wave_spectra_truncates_odd [1, 2] [3, 4] [5, 6] 1 10 0 0
      (3 / 100, 200, 1 / 10, 0)).2 (by simp)⟩

end ProcessMopak
